import Mathlib

/-!
Verification of the concurrent transformation engine in f0rmiga/datanalgo
(package concurrent: Transformer, NewTransformer, Transform, TransformWithError,
TransformChannels, TransformChannelsWithError, process, and the worker bodies).

Modelling choices, justified against the Go source:

The engine builds, per call, a pipeline of worker pools connected by channels
(function process).  Each pool of W workers drains its input channel; for every
envelope received, a worker applies the stage action and sends exactly one
envelope to the output channel; the output channel is closed once all W workers
have exited (sync.WaitGroup + close).  Consequently, for W >= 1 the content of a
stage's output channel, in arrival order, is SOME permutation of the stage's
input content mapped through the action (each input consumed once, each
producing one output; the interleaving of the workers' sends is scheduler
dependent).  We model a stage as the relation admitting every permutation,
which over-approximates the set of schedules, so a property proved for all
behaviours of the model holds for all real interleavings.  For W <= 0 the loop
spawning workers runs zero times, so the output channel closes immediately and
carries nothing; the model returns the empty list in that case.

Go's error interface is modelled by Option over an error type: none is the nil
error.  Go's zero value for the output type is an explicit parameter.  A Go
panic of a whole call is modelled by the call relation yielding none.
-/

namespace Datanalgo

/-- Source struct IndexedItem (linkedlist.go): an item stamped with its original
position, used by the bounded-slice API to restore input order. -/
structure IndexedItem (α : Type) where
  Index : Nat
  Item  : α
  deriving DecidableEq

/-- Source struct IndexedItemWithError: index, item and the per-envelope error
field used by TransformWithError. -/
structure IndexedItemWithError (α ε : Type) where
  Index : Nat
  Item  : α
  Err   : Option ε
  deriving DecidableEq

/-- Source struct ItemWithError: item and error envelope of the streaming
error-capable API (no index). -/
structure ItemWithError (α ε : Type) where
  Item : α
  Err  : Option ε
  deriving DecidableEq

/-- Source struct transformer: the only field is the worker count handed to
NewTransformer.  Go int is modelled as Int so that negative widths are
representable. -/
structure Transformer where
  workers : Int
  deriving DecidableEq

/-- Source NewTransformer (linkedlist.go lines 117-121): returns a transformer
holding the given worker count.  There is no validation of any kind. -/
def NewTransformer (workers : Int) : Transformer :=
  { workers := workers }

/-- The feeder goroutine of Transform: for i, item := range items sends
IndexedItem with index i, in order, then closes the channel.  feed n xs is the
channel content when the enumeration starts at n. -/
def feed : Nat → List α → List (IndexedItem α)
  | _, [] => []
  | n, x :: xs => ⟨n, x⟩ :: feed (n + 1) xs

/-- One worker pool for a Transform stage (worker body, linkedlist.go lines
138-144): every input envelope is mapped through the action keeping its index;
arrival order at the next stage is any permutation (scheduler choice).  With
workers <= 0 no worker is spawned and the output closes empty. -/
def StageRun (workers : Int) (action : α → β)
    (ins : List (IndexedItem α)) (outs : List (IndexedItem β)) : Prop :=
  if 1 ≤ workers then
    outs.Perm (ins.map fun it => ⟨it.Index, action it.Item⟩)
  else outs = []

/-- The collector loop of Transform (lines 147-150): starts from
make([]Output, len(items)) — a slice of zero values — and writes each arriving
item at its stamped index. -/
def collect (arrivals : List (IndexedItem β)) (acc : List β) : List β :=
  arrivals.foldl (fun r it => r.set it.Index it.Item) acc

@[simp] lemma collect_nil (acc : List β) :
    collect ([] : List (IndexedItem β)) acc = acc := rfl

@[simp] lemma collect_cons (a : IndexedItem β) (l : List (IndexedItem β)) (acc : List β) :
    collect (a :: l) acc = collect l (acc.set a.Index a.Item) := rfl

/-- Transform restricted to a single action (the only well-typed multi-type
instantiation; multi-stage calls need Input = Output, see the type-assertion
development below).  The relation holds iff res is a possible return value of
t.Transform(xs, action) under some scheduling of the stage workers. -/
def Transform1Run (t : Transformer) (zero : β) (xs : List α) (action : α → β)
    (res : List β) : Prop :=
  ∃ arrivals, StageRun t.workers action (feed 0 xs) arrivals ∧
    res = collect arrivals (List.replicate xs.length zero)

lemma feed_mem_of_getElem? :
    ∀ (xs : List α) (n k : Nat) (v : α), xs[k]? = some v →
      (⟨n + k, v⟩ : IndexedItem α) ∈ feed n xs := by
  intro xs
  induction xs with
  | nil => intro n k v h; simp at h
  | cons x xs ih =>
    intro n k v h
    cases k with
    | zero =>
      simp only [List.getElem?_cons_zero, Option.some.injEq] at h
      subst h
      exact List.mem_cons_self _ _
    | succ k =>
      have h' : xs[k]? = some v := by simpa using h
      have hmem := ih (n + 1) k v h'
      have hidx : n + (k + 1) = n + 1 + k := by omega
      rw [hidx]
      exact List.mem_cons_of_mem _ hmem

lemma feed_index_item :
    ∀ (xs : List α) (n : Nat) (it : IndexedItem α), it ∈ feed n xs →
      n ≤ it.Index ∧ xs[it.Index - n]? = some it.Item := by
  intro xs
  induction xs with
  | nil => intro n it h; simp [feed] at h
  | cons x xs ih =>
    intro n it h
    rcases List.mem_cons.1 h with heq | hmem
    · subst heq
      refine ⟨Nat.le_refl n, ?_⟩
      simp [Nat.sub_self]
    · obtain ⟨hle, hget⟩ := ih (n + 1) it hmem
      refine ⟨by omega, ?_⟩
      have hidx : it.Index - n = (it.Index - (n + 1)) + 1 := by omega
      rw [hidx]
      simpa using hget

lemma map_feed (f : α → β) :
    ∀ (n : Nat) (xs : List α),
      (feed n xs).map (fun it => (⟨it.Index, f it.Item⟩ : IndexedItem β)) =
        feed n (xs.map f) := by
  intro n xs
  induction xs generalizing n with
  | nil => rfl
  | cons x xs ih => simp [feed, ih]

/-- Core reconstruction invariant: if every position j of the target is either
still owed exactly the right arrival, or already holds the right value in the
accumulator with no arrival left to clobber it, then the collector ends at the
target list. -/
lemma collect_eq_of_cover (ys : List β) :
    ∀ (arrivals : List (IndexedItem β)) (acc : List β),
      acc.length = ys.length →
      (∀ j : Nat, j < ys.length →
        ((∃ it ∈ arrivals, it.Index = j) ∧
          ∀ it ∈ arrivals, it.Index = j → some it.Item = ys[j]?) ∨
        ((∀ it ∈ arrivals, it.Index ≠ j) ∧ acc[j]? = ys[j]?)) →
      collect arrivals acc = ys := by
  intro arrivals
  induction arrivals with
  | nil =>
    intro acc hlen hinv
    rw [collect_nil]
    apply List.ext_getElem?
    intro j
    by_cases hj : j < ys.length
    · rcases hinv j hj with ⟨⟨it, hit, _⟩, _⟩ | ⟨_, h2⟩
      · exact absurd hit (List.not_mem_nil it)
      · exact h2
    · rw [List.getElem?_eq_none (by omega), List.getElem?_eq_none (by omega)]
  | cons a l ih =>
    intro acc hlen hinv
    rw [collect_cons]
    apply ih
    · rw [List.length_set]; exact hlen
    intro j hj
    rcases hinv j hj with ⟨⟨it, hit, hidx⟩, hall⟩ | ⟨hnone, hacc⟩
    · by_cases haj : a.Index = j
      · by_cases hl : ∃ it ∈ l, it.Index = j
        · exact Or.inl ⟨hl, fun it hit' hidx' =>
            hall it (List.mem_cons_of_mem a hit') hidx'⟩
        · right
          push_neg at hl
          refine ⟨hl, ?_⟩
          have hval : some a.Item = ys[j]? := hall a (List.mem_cons_self a l) haj
          rw [← hval, ← haj]
          rw [List.getElem?_set_eq_of_lt]
          omega
      · left
        constructor
        · rcases List.mem_cons.1 hit with heq | hmem
          · exact absurd (heq ▸ hidx) haj
          · exact ⟨it, hmem, hidx⟩
        · exact fun it' hit' hidx' => hall it' (List.mem_cons_of_mem a hit') hidx'
    · right
      have haj : a.Index ≠ j := hnone a (List.mem_cons_self a l)
      refine ⟨fun it hit' => hnone it (List.mem_cons_of_mem a hit'), ?_⟩
      rw [List.getElem?_set_ne haj]
      exact hacc

/-- Any permutation of the stamped, transformed envelopes collapses back to the
transformed list in original order: the index stamps fully determine the
result, whatever the arrival order. -/
lemma collect_feed_perm (ys : List β) (arrivals : List (IndexedItem β)) (acc : List β)
    (hperm : arrivals.Perm (feed 0 ys)) (hlen : acc.length = ys.length) :
    collect arrivals acc = ys := by
  apply collect_eq_of_cover ys arrivals acc hlen
  intro j hj
  left
  constructor
  · obtain ⟨y, hy⟩ : ∃ y, ys[j]? = some y := ⟨ys[j], List.getElem?_eq_getElem hj⟩
    refine ⟨⟨j, y⟩, ?_, rfl⟩
    exact hperm.mem_iff.2 (by simpa using feed_mem_of_getElem? ys 0 j y hy)
  · intro it hit hidx
    have hmem : it ∈ feed 0 ys := hperm.mem_iff.1 hit
    obtain ⟨_, hget⟩ := feed_index_item ys 0 it hmem
    rw [← hidx]
    exact hget.symm

/-- C1: for every input slice xs, every single action f and every worker count
W >= 1, every possible return value of Transform(xs, f) on NewTransformer(W) —
under every interleaving of the workers — is exactly the positional map of f
over xs; in particular the output does not depend on W. -/
theorem transform_single_action_order_preserved (W : Int) (zero : β) (xs : List α)
    (f : α → β) (res : List β) (hW : 1 ≤ W)
    (h : Transform1Run (NewTransformer W) zero xs f res) :
    res = xs.map f := by
  obtain ⟨arrivals, hstage, hres⟩ := h
  unfold StageRun at hstage
  have hw' : 1 ≤ (NewTransformer W).workers := hW
  rw [if_pos hw'] at hstage
  rw [map_feed] at hstage
  subst hres
  apply collect_feed_perm _ _ _ hstage
  rw [List.length_replicate, List.length_map]

/-- C1 witness: a concrete run with three workers doubling [1, 2, 3]. -/
theorem transform_single_action_order_preserved_witness :
    ([2, 4, 6] : List Nat) = [1, 2, 3].map (fun x => x * 2) :=
  transform_single_action_order_preserved 3 0 [1, 2, 3] (fun x => x * 2) [2, 4, 6]
    (by decide)
    ⟨feed 0 [2, 4, 6], by unfold StageRun; decide, by decide⟩

/-- Sequential composition of the stage actions in pipeline order: the head
action is applied first. -/
def composeAll : List (α → α) → α → α
  | [] => id
  | f :: fs => composeAll fs ∘ f

/-- The pipeline wiring of process (linkedlist.go lines 276-295) for the
bounded ordered API: stage k's output channel is stage k+1's input channel,
each stage being one worker pool. -/
inductive ChainRun (workers : Int) :
    List (α → α) → List (IndexedItem α) → List (IndexedItem α) → Prop where
  | nil (ins : List (IndexedItem α)) : ChainRun workers [] ins ins
  | cons (f : α → α) (fs : List (α → α)) (ins mid outs : List (IndexedItem α))
      (h1 : StageRun workers f ins mid) (h2 : ChainRun workers fs mid outs) :
      ChainRun workers (f :: fs) ins outs

/-- Transform (linkedlist.go lines 123-153) in the homogeneous instantiation
Input = Output, the only one a multi-stage call can execute without a
type-assertion panic (see the dynamic-typing development below).  process
returns channels[len(actions)-1]; for an empty actions slice that is index -1
of an empty slice, so the whole call panics before any item is handled —
modelled by res = none.  For a nonempty actions list the collector drains the
final channel into make([]Output, len(items)), a slice of zero values. -/
def TransformRun (t : Transformer) (zero : α) (xs : List α)
    (actions : List (α → α)) (res : Option (List α)) : Prop :=
  match actions with
  | [] => res = none
  | _ :: _ =>
    ∃ outs, ChainRun t.workers actions (feed 0 xs) outs ∧
      res = some (collect outs (List.replicate xs.length zero))

/-- With at least one worker, the content of the pipeline's exit channel is a
permutation of the input envelopes mapped through the composition of all stage
actions, each envelope keeping its index stamp. -/
lemma ChainRun.perm_map {workers : Int} (hW : 1 ≤ workers)
    {fs : List (α → α)} {ins outs : List (IndexedItem α)}
    (h : ChainRun workers fs ins outs) :
    outs.Perm (ins.map fun it => ⟨it.Index, composeAll fs it.Item⟩) := by
  induction h with
  | nil ins =>
    have hmap : (ins.map fun it =>
        (⟨it.Index, composeAll ([] : List (α → α)) it.Item⟩ : IndexedItem α)) = ins := by
      simp [composeAll]
    rw [hmap]
  | cons f fs ins mid outs h1 h2 ih =>
    unfold StageRun at h1
    rw [if_pos hW] at h1
    refine ih.trans ((h1.map _).trans ?_)
    have hfun : ((fun it : IndexedItem α =>
          (⟨it.Index, composeAll fs it.Item⟩ : IndexedItem α)) ∘
        (fun it : IndexedItem α => (⟨it.Index, f it.Item⟩ : IndexedItem α))) =
        fun it : IndexedItem α =>
          (⟨it.Index, composeAll (f :: fs) it.Item⟩ : IndexedItem α) := rfl
    rw [List.map_map, hfun]

/-- A pipeline fed from an empty channel emits nothing, whatever the width. -/
lemma ChainRun.outs_nil {workers : Int} {fs : List (α → α)}
    {ins outs : List (IndexedItem α)}
    (h : ChainRun workers fs ins outs) (hins : ins = []) : outs = [] := by
  induction h with
  | nil ins => exact hins
  | cons f fs ins mid outs h1 h2 ih =>
    subst hins
    apply ih
    unfold StageRun at h1
    by_cases hw : 1 ≤ workers
    · rw [if_pos hw] at h1
      exact h1.eq_nil
    · rw [if_neg hw] at h1
      exact h1

/-- With workers <= 0 the first stage spawns no worker, so its output channel
closes empty and so do all later ones. -/
lemma ChainRun.outs_nil_of_nonpos {workers : Int} (hw : workers ≤ 0)
    {f : α → α} {fs : List (α → α)} {ins outs : List (IndexedItem α)}
    (h : ChainRun workers (f :: fs) ins outs) : outs = [] := by
  cases h with
  | cons _ _ _ mid _ h1 h2 =>
    have hmid : mid = [] := by
      unfold StageRun at h1
      rw [if_neg (by omega)] at h1
      exact h1
    exact ChainRun.outs_nil h2 hmid

/-- C6: for every worker count W >= 1, Transform(xs, f, g) equals
map(g after f, xs) positionally, and in general a nonempty multi-stage call
returns the composition of all stage actions applied positionally, with output
length equal to input length. -/
theorem transform_stage_composition (W : Int) (zero : α) (xs : List α) (hW : 1 ≤ W) :
    (∀ (f g : α → α) (res : Option (List α)),
        TransformRun (NewTransformer W) zero xs [f, g] res →
          res = some (xs.map fun x => g (f x))) ∧
    (∀ (actions : List (α → α)) (res : Option (List α)), actions ≠ [] →
        TransformRun (NewTransformer W) zero xs actions res →
          res = some (xs.map (composeAll actions)) ∧
          ∀ out, res = some out → out.length = xs.length) := by
  have key : ∀ (actions : List (α → α)) (res : Option (List α)), actions ≠ [] →
      TransformRun (NewTransformer W) zero xs actions res →
        res = some (xs.map (composeAll actions)) := by
    intro actions res hne h
    cases actions with
    | nil => exact absurd rfl hne
    | cons a as =>
      obtain ⟨outs, hchain, hres⟩ := h
      have hperm := ChainRun.perm_map hW hchain
      rw [map_feed] at hperm
      have hcol := collect_feed_perm (xs.map (composeAll (a :: as))) outs
        (List.replicate xs.length zero) hperm
        (by rw [List.length_replicate, List.length_map])
      rw [hres, hcol]
  refine ⟨fun f g res h => key [f, g] res (by simp) h, fun actions res hne h => ?_⟩
  refine ⟨key actions res hne h, fun out hout => ?_⟩
  rw [key actions res hne h] at hout
  cases hout
  rw [List.length_map]

/-- C6 witness: one worker, increment then double over [1, 2]. -/
theorem transform_stage_composition_witness :
    (some [4, 6] : Option (List Nat)) = some ([1, 2].map fun x => (x + 1) * 2) :=
  (transform_stage_composition 1 0 [1, 2] (by decide)).1
    (fun x => x + 1) (fun x => x * 2) (some [4, 6])
    ⟨feed 0 [4, 6],
      ChainRun.cons _ _ _ (feed 0 [2, 3]) _ (by unfold StageRun; decide)
        (ChainRun.cons _ _ _ (feed 0 [4, 6]) _ (by unfold StageRun; decide)
          (ChainRun.nil _)),
      by decide⟩

/-- C10: NewTransformer never rejects its argument — it returns a Transformer
carrying exactly the given worker count — and for workers <= 0 with at least
one action, every behaviour of Transform terminates without panic, returning a
slice of len(items) zero values: no worker is spawned, so every stage output
channel closes empty and the collector never overwrites the zero-valued
slice. -/
theorem transform_nonpositive_workers_zero_values (w : Int) (hw : w ≤ 0)
    (zero : α) (xs : List α) (a : α → α) (as : List (α → α)) (res : Option (List α))
    (h : TransformRun (NewTransformer w) zero xs (a :: as) res) :
    (NewTransformer w).workers = w ∧ res = some (List.replicate xs.length zero) := by
  refine ⟨rfl, ?_⟩
  obtain ⟨outs, hchain, hres⟩ := h
  have houts : outs = [] := ChainRun.outs_nil_of_nonpos hw hchain
  rw [hres, houts, collect_nil]

/-- C10 witness: workers = -2 with one action over [7, 8] yields [0, 0]. -/
theorem transform_nonpositive_workers_zero_values_witness :
    (NewTransformer (-2)).workers = -2 ∧
    (some [0, 0] : Option (List Nat)) = some (List.replicate 2 0) :=
  transform_nonpositive_workers_zero_values (-2) (by decide) 0 [7, 8]
    (fun x => x + 1) [] (some [0, 0])
    ⟨[], ChainRun.cons _ _ _ [] _ (by unfold StageRun; decide) (ChainRun.nil _),
      by decide⟩

/-- Modelled from the spec: new_transformer(workers) fails (construction error)
if workers <= 0 (spec section 6).  This definition follows the spec words only
and exists to be compared with the source NewTransformer, whose return type has
no failure mode at all. -/
def newTransformerSpec (workers : Int) : Option Transformer :=
  if 1 ≤ workers then some { workers := workers } else none

/-- C4 counterexample: NewTransformer(0) and NewTransformer(-3) hand the caller
Transformer values configured with nonpositive widths — construction never
fails — while the spec-modelled constructor rejects both. -/
theorem newTransformer_accepts_nonpositive_workers :
    NewTransformer 0 = { workers := 0 } ∧ NewTransformer (-3) = { workers := -3 } ∧
    newTransformerSpec 0 = none ∧ newTransformerSpec (-3) = none := by
  refine ⟨rfl, rfl, by decide, by decide⟩

/-- C4 amended: NewTransformer performs no construction-time validation — for
every workers value, nonpositive included, it returns a Transformer configured
with exactly that count. -/
theorem newTransformer_total : ∀ w : Int, NewTransformer w = { workers := w } :=
  fun _ => rfl

/-- The feeder goroutine of TransformWithError (lines 158-163): every input
item is wrapped with its index and a nil error. -/
def feedE : Nat → List α → List (IndexedItemWithError α ε)
  | _, [] => []
  | n, x :: xs => ⟨n, x, none⟩ :: feedE (n + 1) xs

/-- One worker pool for a TransformWithError stage.  The worker body (lines
170-175) reads an envelope, applies the action to its Item field — it never
inspects the incoming Err field — and emits an envelope whose Err is exactly
what this stage's action returned.  An incoming error is therefore replaced,
not propagated.  An action is modelled as returning its output paired with an
optional error. -/
def StageRunE (workers : Int) (action : α → α × Option ε)
    (ins outs : List (IndexedItemWithError α ε)) : Prop :=
  if 1 ≤ workers then
    outs.Perm (ins.map fun it =>
      ⟨it.Index, (action it.Item).1, (action it.Item).2⟩)
  else outs = []

/-- The pipeline wiring of process for the error-capable bounded API. -/
inductive ChainRunE (workers : Int) :
    List (α → α × Option ε) → List (IndexedItemWithError α ε) →
      List (IndexedItemWithError α ε) → Prop where
  | nil (ins : List (IndexedItemWithError α ε)) : ChainRunE workers [] ins ins
  | cons (f : α → α × Option ε) (fs : List (α → α × Option ε))
      (ins mid outs : List (IndexedItemWithError α ε))
      (h1 : StageRunE workers f ins mid) (h2 : ChainRunE workers fs mid outs) :
      ChainRunE workers (f :: fs) ins outs

/-- The collector loop of TransformWithError (lines 179-187): on the first
envelope whose Err is set it returns (nil, err) at once; otherwise it writes
the item at its index and, when the channel is exhausted, returns the slice
and a nil error. -/
def collectE : List (IndexedItemWithError α ε) → List α → Option (List α) × Option ε
  | [], acc => (some acc, none)
  | it :: rest, acc =>
    match it.Err with
    | some e => (none, some e)
    | none => collectE rest (acc.set it.Index it.Item)

/-- TransformWithError (lines 155-188) in the homogeneous instantiation.  As
with Transform, an empty actions slice makes process index channels[-1] and
panic (res = none); otherwise res carries the Go pair ([]Output, error) as
(Option result, Option error). -/
def TransformWithErrorRun (t : Transformer) (zero : α) (xs : List α)
    (actions : List (α → α × Option ε))
    (res : Option (Option (List α) × Option ε)) : Prop :=
  match actions with
  | [] => res = none
  | _ :: _ =>
    ∃ outs, ChainRunE t.workers actions (feedE 0 xs) outs ∧
      res = some (collectE outs (List.replicate xs.length zero))

/-- C2: refuted.  A two-stage TransformWithError run in which stage 1 fails on
the only item (error 1) while stage 2 succeeds on the zero value it receives:
the stage-2 worker overwrites the envelope's error with its own nil error, the
collector sees no error at all, and the call returns ([1], nil).  The error set
by the first failing stage is lost, not passed through unchanged. -/
theorem transformWithError_stage_error_overwritten :
    TransformWithErrorRun (NewTransformer 1) (0 : Nat) [0]
      [fun x => (x, some 1), fun x => (x + 1, (none : Option Nat))]
      (some (some [1], none)) :=
  ⟨[⟨0, 1, none⟩],
    ChainRunE.cons _ _ _ [⟨0, 0, some 1⟩] _ (by unfold StageRunE; decide)
      (ChainRunE.cons _ _ _ [⟨0, 1, none⟩] _ (by unfold StageRunE; decide)
        (ChainRunE.nil _)),
    by decide⟩

/-- C5: refuted.  With three workers, input [5] and two stages — the first
always failing with error 2, the second tripling — the first stage's error is
overwritten by the successful second stage, so TransformWithError returns a
present result slice ([0]) together with a nil error even though an action
failed on an item: the bounded API is not all-or-nothing across stages. -/
theorem transformWithError_returns_result_despite_failure :
    TransformWithErrorRun (NewTransformer 3) (0 : Nat) [5]
      [fun _ => (0, some 2), fun x => (x * 3, (none : Option Nat))]
      (some (some [0], none)) :=
  ⟨[⟨0, 0, none⟩],
    ChainRunE.cons _ _ _ [⟨0, 0, some 2⟩] _ (by unfold StageRunE; decide)
      (ChainRunE.cons _ _ _ [⟨0, 0, none⟩] _ (by unfold StageRunE; decide)
        (ChainRunE.nil _)),
    by decide⟩

/-- C3: refuted on this implementation.  With zero actions, process returns
channels[len(actions)-1] over an empty channels slice: the index is out of
range and the call panics instead of passing the input through.  Both Transform
and TransformWithError admit exactly the panicked outcome (none), never a
returned slice.  (The sibling implementation in concurrent_transformer.go does
pass the input channel through in this case, which is the spec's stated
behaviour.) -/
theorem transform_zero_actions_panics (α ε : Type) (W : Int) (zero : α)
    (xs : List α) (res : Option (List α))
    (resE : Option (Option (List α) × Option ε)) :
    (TransformRun (NewTransformer W) zero xs [] res ↔ res = none) ∧
    (TransformWithErrorRun (NewTransformer W) zero xs ([] : List (α → α × Option ε)) resE ↔
      resE = none) :=
  ⟨Iff.rfl, Iff.rfl⟩

/-- One worker pool for a TransformChannels stage (worker body, lines 204-209):
values flow unindexed; with workers >= 1 the output channel content is some
permutation of the mapped input, with workers <= 0 it is empty. -/
def StageRunS (workers : Int) (f : α → β) (ins : List α) (outs : List β) : Prop :=
  if 1 ≤ workers then outs.Perm (ins.map f) else outs = []

/-- TransformChannels (lines 190-221) restricted to a single action: the feeder
copies the input channel in order, the stage maps it in nondeterministic order,
and the relay goroutine (lines 213-218) copies the exit channel in order into
the returned channel.  res is the sequence of values the caller receives before
the output channel closes. -/
def TransformChannelsRun1 (t : Transformer) (xs : List α) (f : α → β)
    (res : List β) : Prop :=
  ∃ mid, StageRunS t.workers f xs mid ∧ res = mid

/-- C8: for any worker count W >= 1 and single action f, the multiset of values
received from the TransformChannels output channel equals the multiset of f
mapped over the input values; no positional guarantee is claimed. -/
theorem transformChannels_multiset (W : Int) (xs : List α) (f : α → β)
    (res : List β) (hW : 1 ≤ W)
    (h : TransformChannelsRun1 (NewTransformer W) xs f res) :
    (res : Multiset β) = ((xs.map f : List β) : Multiset β) := by
  obtain ⟨mid, hstage, hres⟩ := h
  unfold StageRunS at hstage
  have hW' : 1 ≤ (NewTransformer W).workers := hW
  rw [if_pos hW'] at hstage
  subst hres
  exact Multiset.coe_eq_coe.2 hstage

/-- C8 witness: four workers doubling the stream 1..9 yield the multiset
2, 4, ..., 18. -/
theorem transformChannels_multiset_witness :
    (([2, 4, 6, 8, 10, 12, 14, 16, 18] : List Nat) : Multiset Nat) =
      (([1, 2, 3, 4, 5, 6, 7, 8, 9].map (fun x => x * 2) : List Nat) : Multiset Nat) :=
  transformChannels_multiset 4 [1, 2, 3, 4, 5, 6, 7, 8, 9] (fun x => x * 2)
    [2, 4, 6, 8, 10, 12, 14, 16, 18] (by decide)
    ⟨[2, 4, 6, 8, 10, 12, 14, 16, 18], by unfold StageRunS; decide, rfl⟩

/-- One worker pool for a TransformChannelsWithError stage (worker body, lines
237-242): like the indexed error stage, the worker applies the action to the
incoming Item and emits the action's own error, ignoring the incoming Err. -/
def StageRunSE (workers : Int) (f : α → β × Option ε)
    (ins : List (ItemWithError α ε)) (outs : List (ItemWithError β ε)) : Prop :=
  if 1 ≤ workers then
    outs.Perm (ins.map fun it => ⟨(f it.Item).1, (f it.Item).2⟩)
  else outs = []

/-- The consumer goroutine of TransformChannelsWithError (lines 247-257): it
forwards each arriving non-errored Item to the output channel; on the first
errored envelope it sends that error on the error channel and returns, closing
both channels.  The result is the pair (values forwarded in order, errors
sent). -/
def consumeStream : List (ItemWithError β ε) → List β × List ε
  | [] => ([], [])
  | it :: rest =>
    match it.Err with
    | some e => ([], [e])
    | none => (it.Item :: (consumeStream rest).1, (consumeStream rest).2)

lemma consumeStream_cons_err (a : ItemWithError β ε)
    (rest : List (ItemWithError β ε)) (e : ε) (h : a.Err = some e) :
    consumeStream (a :: rest) = ([], [e]) := by
  obtain ⟨v, err⟩ := a
  cases err with
  | some e2 =>
    have he : e2 = e := by simpa using h
    subst he
    rfl
  | none => simp at h

lemma consumeStream_cons_ok (a : ItemWithError β ε)
    (rest : List (ItemWithError β ε)) (h : a.Err = none) :
    consumeStream (a :: rest) =
      (a.Item :: (consumeStream rest).1, (consumeStream rest).2) := by
  obtain ⟨v, err⟩ := a
  cases err with
  | some e2 => simp at h
  | none => rfl

/-- The consumer splits its arrival sequence into a maximal error-free prelude,
which it forwards in order, and an optional first errored envelope whose error
is the only one ever sent. -/
lemma consumeStream_eq (arr : List (ItemWithError β ε)) :
    ∃ pre rest, arr = pre ++ rest ∧ (∀ it ∈ pre, it.Err = none) ∧
      (consumeStream arr).1 = pre.map (fun it => it.Item) ∧
      ((rest = [] ∧ (consumeStream arr).2 = []) ∨
        (∃ it tail e, rest = it :: tail ∧ it.Err = some e ∧
          (consumeStream arr).2 = [e])) := by
  induction arr with
  | nil => exact ⟨[], [], rfl, by simp, rfl, Or.inl ⟨rfl, rfl⟩⟩
  | cons a arr ih =>
    cases hErr : a.Err with
    | some e =>
      refine ⟨[], a :: arr, rfl, by simp, ?_, Or.inr ⟨a, arr, e, rfl, hErr, ?_⟩⟩
      · rw [consumeStream_cons_err a arr e hErr]
        rfl
      · rw [consumeStream_cons_err a arr e hErr]
    | none =>
      obtain ⟨pre, rest, harr, hpre, h1, hcase⟩ := ih
      refine ⟨a :: pre, rest, ?_, ?_, ?_, ?_⟩
      · rw [List.cons_append, ← harr]
      · intro it hit
        rcases List.mem_cons.1 hit with heq | hmem
        · rw [heq]; exact hErr
        · exact hpre it hmem
      · rw [consumeStream_cons_ok a arr hErr, List.map_cons, h1]
      · rcases hcase with ⟨hr, h2⟩ | ⟨it, tail, e, hr, hie, h2⟩
        · exact Or.inl ⟨hr, by rw [consumeStream_cons_ok a arr hErr]; exact h2⟩
        · exact Or.inr ⟨it, tail, e, hr, hie,
            by rw [consumeStream_cons_ok a arr hErr]; exact h2⟩

/-- TransformChannelsWithError (lines 223-260) restricted to a single action:
the feeder wraps each input value with a nil error, the stage transforms it,
and the consumer produces the caller-visible pair of channel contents. -/
def TransformChannelsWithErrorRun1 (t : Transformer) (xs : List α)
    (f : α → β × Option ε) (res : List β × List ε) : Prop :=
  ∃ arr, StageRunSE t.workers f (xs.map fun x => ⟨x, none⟩) arr ∧
    res = consumeStream arr

/-- C7: for every run of TransformChannelsWithError with a single action and
W >= 1 workers, at most one error is ever sent (so the capacity-one error
channel never blocks), the values forwarded before both channels close are
exactly the maximal error-free prelude of the arrival order — a permutation of
the transformed inputs — in arrival order, and if no envelope is errored then
every value is forwarded and the error channel stays empty. -/
theorem transformChannelsWithError_consumer (W : Int) (xs : List α)
    (f : α → β × Option ε) (res : List β × List ε) (hW : 1 ≤ W)
    (h : TransformChannelsWithErrorRun1 (NewTransformer W) xs f res) :
    res.2.length ≤ 1 ∧
    ∃ pre rest : List (ItemWithError β ε),
      (pre ++ rest).Perm (xs.map fun x => (⟨(f x).1, (f x).2⟩ : ItemWithError β ε)) ∧
      (∀ it ∈ pre, it.Err = none) ∧
      res.1 = pre.map (fun it => it.Item) ∧
      ((rest = [] ∧ res.2 = []) ∨
        (∃ it tail e, rest = it :: tail ∧ it.Err = some e ∧ res.2 = [e])) := by
  obtain ⟨arr, hstage, hres⟩ := h
  unfold StageRunSE at hstage
  have hW' : 1 ≤ (NewTransformer W).workers := hW
  rw [if_pos hW'] at hstage
  rw [List.map_map] at hstage
  have hfun : ((fun it : ItemWithError α ε =>
        (⟨(f it.Item).1, (f it.Item).2⟩ : ItemWithError β ε)) ∘
      (fun x : α => (⟨x, none⟩ : ItemWithError α ε))) =
      fun x : α => (⟨(f x).1, (f x).2⟩ : ItemWithError β ε) := rfl
  rw [hfun] at hstage
  obtain ⟨pre, rest, harr, hpre, h1, hcase⟩ := consumeStream_eq arr
  subst hres
  constructor
  · rcases hcase with ⟨_, h2⟩ | ⟨it, tail, e, _, _, h2⟩
    · rw [h2]; simp
    · rw [h2]; simp
  · exact ⟨pre, rest, harr ▸ hstage, hpre, h1, hcase⟩

/-- C7 witness: one worker, doubling with failure on input 2, over [1, 2, 3]
under the arrival order 2, 4(err 7), 6: the consumer forwards [2] and sends the
single error 7. -/
theorem transformChannelsWithError_consumer_witness :
    ((([2], [7]) : List Nat × List Nat).2.length ≤ 1 ∧
      ∃ pre rest : List (ItemWithError Nat Nat),
        (pre ++ rest).Perm ([1, 2, 3].map fun x =>
          (⟨x * 2, if x = 2 then some 7 else none⟩ : ItemWithError Nat Nat)) ∧
        (∀ it ∈ pre, it.Err = none) ∧
        (([2], [7]) : List Nat × List Nat).1 = pre.map (fun it => it.Item) ∧
        ((rest = [] ∧ (([2], [7]) : List Nat × List Nat).2 = []) ∨
          (∃ it tail e, rest = it :: tail ∧ it.Err = some e ∧
            (([2], [7]) : List Nat × List Nat).2 = [e]))) :=
  transformChannelsWithError_consumer 1 [1, 2, 3]
    (fun x => (x * 2, if x = 2 then some 7 else none)) ([2], [7]) (by decide)
    ⟨[⟨2, none⟩, ⟨4, some 7⟩, ⟨6, none⟩], by unfold StageRunSE; decide, by decide⟩

section DynamicTyping

variable {Code : Type} [DecidableEq Code] {interp : Code → Type}

/-- A Go interface value as carried by the pipeline channels (the Item field of
IndexedItem[any]): a dynamic type code paired with a value of that type. -/
def GoAny (interp : Code → Type) : Type := Σ c, interp c

/-- Go type assertion v.(T): yields the underlying value when the dynamic type
code equals the asserted code, and panics (none) otherwise. -/
def typeAssert (t : Code) (v : GoAny interp) : Option (interp t) :=
  if h : v.1 = t then some (h ▸ v.2) else none

/-- One worker step on the boxed payload (line 141): assert the incoming Item
down to Input, apply the stage action, box the Output for the next channel. -/
def stageStep (In Out : Code) (action : interp In → interp Out)
    (v : GoAny interp) : Option (GoAny interp) :=
  (typeAssert In v).map fun x => ⟨Out, action x⟩

/-- The journey of one item through the worker of every successive stage.  The
assertions performed on an item depend only on that item's own envelope, never
on the interleaving or the worker count, so the per-item run decides
panic-freedom of the whole call. -/
def pipelineSteps (In Out : Code) :
    List (interp In → interp Out) → GoAny interp → Option (GoAny interp)
  | [], v => some v
  | a :: as, v => (stageStep In Out a v).bind (pipelineSteps In Out as)

/-- A full per-item bounded-API call: the feeder boxes the statically typed
input item, every stage transforms it, and the collector runs the final
assertion indexedItem.Item.(Output) (line 149). -/
def callItem (In Out : Code) (actions : List (interp In → interp Out))
    (x : interp In) : Option (interp Out) :=
  (pipelineSteps In Out actions ⟨In, x⟩).bind (typeAssert Out)

lemma typeAssert_self (c : Code) (v : interp c) :
    typeAssert c (⟨c, v⟩ : GoAny interp) = some v := by
  unfold typeAssert
  rw [dif_pos rfl]

lemma typeAssert_ne (c t : Code) (h : c ≠ t) (v : interp c) :
    typeAssert t (⟨c, v⟩ : GoAny interp) = none := by
  unfold typeAssert
  rw [dif_neg h]

end DynamicTyping

/-- C9: in a multi-stage bounded call every stage after the first asserts the
boxed value produced by the previous stage (dynamic type Output) down to
Input.  A stage's assertion fails exactly when the incoming value is not
dynamically of type Input; whenever Input and Output are the same type, the
whole per-item run — every worker assertion and the collector's final
assertion — is panic-free for every action list; and with two stages over
distinct Input and Output the second stage's assertion always panics. -/
theorem transform_type_assertions {Code : Type} [DecidableEq Code]
    {interp : Code → Type} (In Out : Code) :
    (∀ (a : interp In → interp Out) (c : Code) (w : interp c),
        stageStep In Out a ⟨c, w⟩ = none ↔ c ≠ In) ∧
    (In = Out → ∀ (actions : List (interp In → interp Out)) (x : interp In),
        (callItem In Out actions x).isSome = true) ∧
    (In ≠ Out → ∀ (a b : interp In → interp Out) (x : interp In),
        callItem In Out [a, b] x = none) := by
  refine ⟨?_, ?_, ?_⟩
  · intro a c w
    by_cases h : c = In
    · subst h
      simp [stageStep, typeAssert_self]
    · have hnone : typeAssert In (⟨c, w⟩ : GoAny interp) = none :=
        typeAssert_ne c In h w
      simp [stageStep, hnone, h]
  · intro h actions x
    subst h
    induction actions generalizing x with
    | nil => simp [callItem, pipelineSteps, typeAssert_self]
    | cons a as ih =>
      have hstep : callItem In In (a :: as) x = callItem In In as (a x) := by
        simp [callItem, pipelineSteps, stageStep, typeAssert_self]
      rw [hstep]
      exact ih (a x)
  · intro hne a b x
    have h1 : typeAssert In (⟨Out, a x⟩ : GoAny interp) = none :=
      typeAssert_ne Out In (fun h => hne h.symm) (a x)
    simp [callItem, pipelineSteps, stageStep, typeAssert_self, h1]

/-- C9 witness: over the one-code universe (Input and Output necessarily
equal) a two-stage per-item run completes without any assertion panic. -/
theorem transform_type_assertions_witness :
    (@callItem Unit _ (fun _ => Nat) () () [fun x => x + 1, fun x => x * 2] 3).isSome =
      true :=
  (@transform_type_assertions Unit _ (fun _ => Nat) () ()).2.1 rfl
    [fun x => x + 1, fun x => x * 2] 3

end Datanalgo
